import Mathlib

/-!
Formal model of the `evnt` event persistence subsystem (src/lib.rs,
src/event.rs, src/utils.rs).

Modelling conventions:
* Machine integers are `Nat` with explicit bounds (`< 2 ^ 128` for `u128`,
  `< 2 ^ 64` for `u64`/`usize`, `< 256` for `u8`).
* Byte sequences and filenames are `List Nat` (each element a byte /
  character code).
* The filesystem directory of events is a `List` of entries, each carrying
  a name, a file type and (for readable regular files) its byte contents;
  `none` contents model an unreadable file.
* Fallible operations return `Option` / `Except String`.
-/

namespace Evnt

/-! ## Fixed-width little-endian integer encoding

`bincode` (default configuration) serializes `u64` length prefixes, the
`Option` tag byte, and the `u128` id field with fixed-width little-endian
encodings.  `encodeW w n` is the `w`-byte little-endian encoding of `n`;
`decodeW w l` reads `w` bytes off the front of `l`. -/

def encodeW : Nat → Nat → List Nat
  | 0, _ => []
  | w + 1, n => n % 256 :: encodeW w (n / 256)

def decodeW : Nat → List Nat → Option (Nat × List Nat)
  | 0, l => some (0, l)
  | _ + 1, [] => none
  | w + 1, b :: l => (decodeW w l).map (fun p => (b + 256 * p.1, p.2))

/-! ## Length-prefixed byte strings

`bincode` serializes a Rust `String` (or `&str`) as a `u64` little-endian
byte length followed by the UTF-8 bytes.  Strings are modelled as their
UTF-8 byte sequences (`List Nat`); UTF-8 validation on decode, which always
succeeds on bytes produced by the encoder, is elided. -/

def readN : Nat → List Nat → Option (List Nat × List Nat)
  | 0, l => some ([], l)
  | _ + 1, [] => none
  | n + 1, b :: l => (readN n l).map (fun p => (b :: p.1, p.2))

def encBytes (s : List Nat) : List Nat :=
  encodeW 8 s.length ++ s

def decBytes (l : List Nat) : Option (List Nat × List Nat) :=
  match decodeW 8 l with
  | none => none
  | some (len, rest) => readN len rest

/-! ## Decimal filenames

The event id (a `u128`) doubles as the storage filename in its decimal
string form (`id.to_string()` on write and delete, `name.parse::<u128>()`
on the id scan).  `decName` renders a `Nat` as the list of ASCII codes of
its decimal representation; `parseU128` models Rust's `u128::from_str`:
an optional leading plus sign, then one or more ASCII digits, with the
value required to fit in 128 bits. -/

def decNameAux : Nat → Nat → List Nat
  | 0, _ => []
  | fuel + 1, n =>
    if n = 0 then [] else decNameAux fuel (n / 10) ++ [48 + n % 10]

def decName (n : Nat) : List Nat :=
  if n = 0 then [48] else decNameAux n n

def digitVal (c : Nat) : Option Nat :=
  if 48 ≤ c ∧ c ≤ 57 then some (c - 48) else none

def parseDigitsAux : List Nat → Nat → Option Nat
  | [], acc => some acc
  | c :: r, acc =>
    match digitVal c with
    | some d => parseDigitsAux r (acc * 10 + d)
    | none => none

def parseDigits : List Nat → Option Nat
  | [] => none
  | l => parseDigitsAux l 0

def parseU128 (s : List Nat) : Option Nat :=
  let t := if s.head? = some 43 then s.tail else s
  match parseDigits t with
  | some n => if n < 2 ^ 128 then some n else none
  | none => none

/-! ## The Event record and its binary serialization

`Event` mirrors `src/event.rs`: a name, an optional description, a UTC
timestamp and a private 128-bit id.  The timestamp is chrono's
`DateTime<Utc>`, i.e. a count of seconds since the epoch plus a
nanosecond-of-second; chrono serializes it through serde as an injective
textual form, modelled here as a fixed-width lossless encoding of the
(seconds, nanoseconds) pair — the spec pins only per-field losslessness of
the round-trip, not a byte layout.  `serialize` mirrors
`bincode::serialize` on the derived `Serialize` instance: the four fields
in declaration order, strings length-prefixed, the option tagged with one
byte, the `u128` id in 16 fixed bytes. -/

structure UtcDateTime where
  secs : Int
  nanos : Nat
deriving DecidableEq, Repr

structure Event where
  name : List Nat
  description : Option (List Nat)
  date_time : UtcDateTime
  id : Nat
deriving DecidableEq, Repr

def ValidBytes (s : List Nat) : Prop :=
  (∀ b ∈ s, b < 256) ∧ s.length < 2 ^ 64

def ValidDesc : Option (List Nat) → Prop
  | none => True
  | some s => ValidBytes s

def UtcDateTime.Valid (t : UtcDateTime) : Prop :=
  -(2 ^ 63) ≤ t.secs ∧ t.secs < 2 ^ 63 ∧ t.nanos < 10 ^ 9

def Event.Valid (e : Event) : Prop :=
  ValidBytes e.name ∧ ValidDesc e.description ∧ e.date_time.Valid ∧
    e.id < 2 ^ 128

instance (s : List Nat) : Decidable (ValidBytes s) := by
  unfold ValidBytes; infer_instance

instance (o : Option (List Nat)) : Decidable (ValidDesc o) := by
  cases o <;> unfold ValidDesc <;> infer_instance

instance (t : UtcDateTime) : Decidable t.Valid := by
  unfold UtcDateTime.Valid; infer_instance

instance (e : Event) : Decidable e.Valid := by
  unfold Event.Valid; infer_instance

def encOpt : Option (List Nat) → List Nat
  | none => [0]
  | some s => 1 :: encBytes s

def decOpt : List Nat → Option (Option (List Nat) × List Nat)
  | [] => none
  | b :: r =>
    if b = 0 then some (none, r)
    else if b = 1 then (decBytes r).map (fun p => (some p.1, p.2))
    else none

def encDT (t : UtcDateTime) : List Nat :=
  encodeW 8 (t.secs + 2 ^ 63).toNat ++ encodeW 4 t.nanos

def decDT (l : List Nat) : Option (UtcDateTime × List Nat) :=
  match decodeW 8 l with
  | none => none
  | some (s, r1) =>
    match decodeW 4 r1 with
    | none => none
    | some (nn, r2) => some (⟨(s : Int) - 2 ^ 63, nn⟩, r2)

def serialize (e : Event) : List Nat :=
  encBytes e.name ++ (encOpt e.description ++ (encDT e.date_time ++
    encodeW 16 e.id))

def deserialize (l : List Nat) : Option Event :=
  match decBytes l with
  | none => none
  | some (name, l1) =>
    match decOpt l1 with
    | none => none
    | some (desc, l2) =>
      match decDT l2 with
      | none => none
      | some (dt, l3) =>
        match decodeW 16 l3 with
        | none => none
        | some (i, _) => some ⟨name, desc, dt, i⟩

/-! ## Storage context (src/lib.rs)

`App` holds the root data directory and the events sub-directory; `App.new`
is pure path composition (`data_dir.join("events/")`), with paths modelled
as component lists. -/

structure App where
  data_dir : List String
  events_dir : List String
deriving DecidableEq, Repr

def App.new (data_dir : List String) : App :=
  { data_dir := data_dir, events_dir := data_dir ++ ["events"] }

/-! ## The events directory

A directory listing is a list of entries; each entry has a filename, a
file type (regular file, directory, or other special entry), and — when it
is a readable regular file — its byte contents (`none` models a regular
file whose read fails). -/

inductive FType
  | file
  | dir
  | other
deriving DecidableEq, Repr

structure Entry where
  name : List Nat
  ftype : FType
  bytes : Option (List Nat)
deriving DecidableEq, Repr

/-- Model of `get_ids` (src/event.rs): walk every directory entry — with no
file-type check — and collect each filename that parses as a decimal
`u128`. -/
def get_ids (d : List Entry) : List Nat :=
  d.filterMap (fun en => parseU128 en.name)

/-- Model of `generate_id` (src/event.rs): read the in-use ids once, then
loop drawing random `u128` values until one is outside that set.  The
random draws of `rand::random` are made explicit as a stream; `none` means
the stream was exhausted while every draw collided (the Rust loop would
keep drawing). -/
def generate_id (d : List Entry) (draws : List Nat) : Option Nat :=
  draws.find? (fun i => !((get_ids d).contains i))

/-- Model of `Event::new` (src/event.rs): generate a fresh id against the
current directory listing and assemble the record in memory; fails exactly
when id generation fails.  Nothing is written. -/
def Event.new (name : List Nat) (description : Option (List Nat))
    (date_time : UtcDateTime) (d : List Entry) (draws : List Nat) :
    Option Event :=
  (generate_id d draws).map (fun i =>
    { name := name, description := description, date_time := date_time,
      id := i })

/-- Construct as a state transformer on the events directory: `Event::new`
takes the storage context by shared reference and only lists the
directory, so the directory listing it returns is the one it was given. -/
def constructOp (name : List Nat) (description : Option (List Nat))
    (date_time : UtcDateTime) (d : List Entry) (draws : List Nat) :
    Option Event × List Entry :=
  (Event.new name description date_time d draws, d)

def containsName (n : List Nat) (d : List Entry) : Bool :=
  d.any (fun en => en.name = n)

/-- Model of `fs::write`: create the file with the given bytes, replacing
the contents if an entry with that name already exists. -/
def fsWrite (n : List Nat) (b : List Nat) (d : List Entry) : List Entry :=
  if containsName n d then
    d.map (fun en =>
      if en.name = n then { name := n, ftype := FType.file, bytes := some b }
      else en)
  else d ++ [{ name := n, ftype := FType.file, bytes := some b }]

/-- Model of `Event::store` (src/event.rs): serialize the event and write
the bytes to the file named by the decimal form of its id. -/
def Event.store (e : Event) (d : List Entry) : List Entry :=
  fsWrite (decName e.id) (serialize e) d

/-- Model of `fs::remove_file` on a directory listing: error when no entry
carries the name or the named entry is not a regular file; otherwise drop
exactly that entry. -/
def removeFile (n : List Nat) : List Entry → Except String (List Entry)
  | [] => Except.error "file not found"
  | en :: rest =>
    if en.name = n then
      if en.ftype = FType.file then Except.ok rest
      else Except.error "is a directory"
    else (removeFile n rest).map (fun d => en :: d)

/-- Model of `Event::delete_file` (src/event.rs): remove the file named by
the decimal form of the id, propagating the filesystem error (annotated in
the source with the event name and id) when it is absent. -/
def Event.delete_file (e : Event) (d : List Entry) :
    Except String (List Entry) :=
  removeFile (decName e.id) d

/-- Body of the `read_events` loop (src/event.rs): for each entry, skip it
unless its file type is a regular file; otherwise read its bytes and
deserialize them, aborting the whole walk at the first failure. -/
def readEntries : List Entry → Except String (List Event)
  | [] => Except.ok []
  | en :: rest =>
    if en.ftype = FType.file then
      match en.bytes with
      | none => Except.error "failed to read from file"
      | some b =>
        match deserialize b with
        | none => Except.error "failed to deserialize event"
        | some ev => (readEntries rest).map (fun l => ev :: l)
    else readEntries rest

/-- Model of `read_events` (src/event.rs): `none` as input models a
directory that cannot be listed (`fs::read_dir` failure). -/
def read_events : Option (List Entry) → Except String (List Event)
  | none => Except.error "failed to read directory"
  | some d => readEntries d

/-! ## Directory bootstrap (src/utils.rs)

The filesystem's directory tree is modelled as the list of directory paths
that exist; `create_dir_all` creates every missing ancestor of the target
path and is a no-op on those already present, which is exactly the
behaviour `create_dirs` relies on (it additionally tolerates the
`AlreadyExists` error kind). -/

def insertPath (s : List (List String)) (q : List String) :
    List (List String) :=
  if q ∈ s then s else s ++ [q]

def pathPrefixes (p : List String) : List (List String) :=
  (List.range p.length).map (fun i => p.take (i + 1))

def create_dir_all (p : List String) (fs : List (List String)) :
    List (List String) :=
  (pathPrefixes p).foldl insertPath fs

/-- Model of `create_dirs` (src/utils.rs): ensure the events directory and
all of its ancestors exist. -/
def create_dirs (a : App) (fs : List (List String)) :
    List (List String) :=
  create_dir_all a.events_dir fs

/-! ## Reachable directory states

The transition system generated by the three store operations, starting
from an empty events directory.  Events fed to `store` and `delete` carry
the Rust type invariants (`u8` name bytes, `u128` id, chrono timestamp
range), recorded as `Event.Valid`. -/

inductive Step : List Entry → List Entry → Prop
  | construct (name : List Nat) (description : Option (List Nat))
      (date_time : UtcDateTime) (draws : List Nat) (d : List Entry) :
      Step d (constructOp name description date_time d draws).2
  | store (e : Event) (he : e.Valid) (d : List Entry) :
      Step d (e.store d)
  | delete (e : Event) (he : e.Valid) (d d' : List Entry)
      (h : e.delete_file d = Except.ok d') : Step d d'

inductive Reach : List Entry → Prop
  | empty : Reach []
  | step {d d' : List Entry} : Reach d → Step d d' → Reach d'

/-- An events-directory entry as produced by `Event::store`: a regular
file holding the serialization of a well-formed event whose decimal id is
the filename. -/
def EntryGood (en : Entry) : Prop :=
  en.ftype = FType.file ∧
    ∃ e : Event, e.Valid ∧ en.bytes = some (serialize e) ∧
      en.name = decName e.id

def GoodDir (d : List Entry) : Prop :=
  (d.map Entry.name).Nodup ∧ ∀ en ∈ d, EntryGood en

/-- Reading and decoding a single directory entry. -/
def decodeEntry (en : Entry) : Option Event :=
  en.bytes.bind deserialize

theorem encodeW_length (w n : Nat) : (encodeW w n).length = w := by
  induction w generalizing n with
  | zero => rfl
  | succ w ih => simp [encodeW, ih]

theorem decodeW_encodeW (w : Nat) :
    ∀ (n : Nat), n < 256 ^ w → ∀ (r : List Nat),
      decodeW w (encodeW w n ++ r) = some (n, r) := by
  induction w with
  | zero =>
    intro n hn r
    interval_cases n
    rfl
  | succ w ih =>
    intro n hn r
    have hdiv : n / 256 < 256 ^ w := by
      rw [Nat.div_lt_iff_lt_mul (by norm_num)]
      calc n < 256 ^ (w + 1) := hn
        _ = 256 ^ w * 256 := by ring
    have hstep : encodeW (w + 1) n ++ r
        = n % 256 :: (encodeW w (n / 256) ++ r) := by
      simp [encodeW]
    rw [hstep]
    show (decodeW w (encodeW w (n / 256) ++ r)).map
      (fun p => (n % 256 + 256 * p.1, p.2)) = some (n, r)
    rw [ih (n / 256) hdiv r]
    have : n % 256 + 256 * (n / 256) = n := Nat.mod_add_div n 256
    simp [this]

theorem readN_append (s : List Nat) (r : List Nat) :
    readN s.length (s ++ r) = some (s, r) := by
  induction s with
  | nil => rfl
  | cons b t ih => simp [readN, ih]

theorem decBytes_encBytes (s : List Nat) (hlen : s.length < 2 ^ 64)
    (r : List Nat) : decBytes (encBytes s ++ r) = some (s, r) := by
  have h : (256 : Nat) ^ 8 = 2 ^ 64 := by norm_num
  simp only [encBytes, List.append_assoc, decBytes,
    decodeW_encodeW 8 s.length (by rw [h]; exact hlen) (s ++ r)]
  exact readN_append s r

theorem decNameAux_eq (fuel : Nat) :
    ∀ n, n ≤ fuel →
      decNameAux fuel n = (Nat.digits 10 n).reverse.map (fun d => 48 + d) := by
  induction fuel with
  | zero =>
    intro n hn
    have : n = 0 := Nat.le_zero.mp hn
    subst this
    simp [decNameAux]
  | succ fuel ih =>
    intro n hn
    by_cases hz : n = 0
    · subst hz; simp [decNameAux]
    · have hpos : 0 < n := Nat.pos_of_ne_zero hz
      have hdig := Nat.digits_def' (b := 10) (by norm_num) hpos
      have hdiv : n / 10 ≤ fuel := by
        have : n / 10 < n := Nat.div_lt_self hpos (by norm_num)
        omega
      simp only [decNameAux, if_neg hz, ih (n / 10) hdiv, hdig,
        List.reverse_cons, List.map_append, List.map_cons, List.map_nil]

theorem decName_eq (n : Nat) :
    decName n =
      if n = 0 then [48]
      else (Nat.digits 10 n).reverse.map (fun d => 48 + d) := by
  by_cases hz : n = 0
  · subst hz; rfl
  · simp [decName, if_neg hz, decNameAux_eq n n le_rfl]

theorem parseDigitsAux_digits (ds : List Nat) (hds : ∀ d ∈ ds, d < 10) :
    ∀ acc, parseDigitsAux (ds.map (fun d => 48 + d)) acc =
      some (ds.foldl (fun a d => a * 10 + d) acc) := by
  induction ds with
  | nil => intro acc; rfl
  | cons d t ih =>
    intro acc
    have hd : d < 10 := hds d (by simp)
    have hdv : digitVal (48 + d) = some d := by
      unfold digitVal
      rw [if_pos ⟨Nat.le_add_right 48 d, by omega⟩]
      congr 1
      omega
    simp only [List.map_cons, parseDigitsAux, hdv, List.foldl_cons]
    exact ih (fun x hx => hds x (by simp [hx])) (acc * 10 + d)

theorem foldl_reverse_digits (ds : List Nat) :
    ∀ acc, ds.reverse.foldl (fun a d => a * 10 + d) acc =
      acc * 10 ^ ds.length + Nat.ofDigits 10 ds := by
  induction ds with
  | nil => intro acc; simp
  | cons d t ih =>
    intro acc
    simp only [List.reverse_cons, List.foldl_append, List.foldl_cons,
      List.foldl_nil, ih acc, Nat.ofDigits_cons, List.length_cons]
    ring

theorem parseDigits_decName (n : Nat) : parseDigits (decName n) = some n := by
  by_cases hn : n = 0
  · subst hn; rfl
  · rw [decName_eq, if_neg hn]
    have hne : Nat.digits 10 n ≠ [] := Nat.digits_ne_nil_iff_ne_zero.mpr hn
    have hmapne : (Nat.digits 10 n).reverse.map (fun d => 48 + d) ≠ [] := by
      simp [hne]
    have hds : ∀ d ∈ (Nat.digits 10 n).reverse, d < 10 := by
      intro d hd
      exact Nat.digits_lt_base (by norm_num) (List.mem_reverse.mp hd)
    have haux := parseDigitsAux_digits (Nat.digits 10 n).reverse hds 0
    have hfold := foldl_reverse_digits (Nat.digits 10 n) 0
    unfold parseDigits
    cases hmap : (Nat.digits 10 n).reverse.map (fun d => 48 + d) with
    | nil => exact absurd hmap hmapne
    | cons c t =>
      show parseDigitsAux (c :: t) 0 = some n
      rw [← hmap, haux, hfold, Nat.zero_mul, Nat.zero_add,
        Nat.ofDigits_digits]

theorem decName_head_ne_plus (n : Nat) : (decName n).head? ≠ some 43 := by
  by_cases hn : n = 0
  · subst hn; simp [decName]
  · rw [decName_eq, if_neg hn]
    have hne : Nat.digits 10 n ≠ [] := Nat.digits_ne_nil_iff_ne_zero.mpr hn
    cases hrev : (Nat.digits 10 n).reverse with
    | nil => simp at hrev; exact absurd hrev hne
    | cons d t => simp [hrev]; omega

theorem parseU128_decName (n : Nat) (hn : n < 2 ^ 128) :
    parseU128 (decName n) = some n := by
  unfold parseU128
  simp only [if_neg (decName_head_ne_plus n), parseDigits_decName n,
    if_pos hn]

theorem decName_injOn {a b : Nat} (ha : a < 2 ^ 128) (hb : b < 2 ^ 128)
    (h : decName a = decName b) : a = b := by
  have := parseU128_decName a ha
  rw [h, parseU128_decName b hb] at this
  exact (Option.some_injective _ this).symm

theorem decOpt_encOpt (o : Option (List Nat)) (ho : ValidDesc o)
    (r : List Nat) : decOpt (encOpt o ++ r) = some (o, r) := by
  cases o with
  | none => rfl
  | some s =>
    simp only [encOpt, List.cons_append, decOpt]
    norm_num
    rw [decBytes_encBytes s ho.2]

theorem decDT_encDT (t : UtcDateTime) (ht : t.Valid) (r : List Nat) :
    decDT (encDT t ++ r) = some (t, r) := by
  obtain ⟨h1, h2, h3⟩ := ht
  have hsn : (0 : Int) ≤ t.secs + 2 ^ 63 := by omega
  have hslt : (t.secs + 2 ^ 63).toNat < 256 ^ 8 := by
    omega
  have hnlt : t.nanos < 256 ^ 4 := by
    calc t.nanos < 10 ^ 9 := h3
      _ < 256 ^ 4 := by norm_num
  simp only [encDT, List.append_assoc, decDT,
    decodeW_encodeW 8 _ hslt (encodeW 4 t.nanos ++ r),
    decodeW_encodeW 4 _ hnlt r]
  have hsecs : ((t.secs + 2 ^ 63).toNat : Int) - 2 ^ 63 = t.secs := by
    omega
  rw [hsecs]

theorem deserialize_serialize (e : Event) (he : e.Valid) :
    deserialize (serialize e) = some e := by
  obtain ⟨hname, hdesc, hdt, hid⟩ := he
  have h1 := decBytes_encBytes e.name hname.2
    (encOpt e.description ++ (encDT e.date_time ++ encodeW 16 e.id))
  have h2 := decOpt_encOpt e.description hdesc
    (encDT e.date_time ++ encodeW 16 e.id)
  have h3 := decDT_encDT e.date_time hdt (encodeW 16 e.id)
  have h4 := decodeW_encodeW 16 e.id (by norm_num at hid ⊢; exact hid) []
  rw [List.append_nil] at h4
  simp [serialize, deserialize, h1, h2, h3, h4]

theorem find?_not_contains {l : List Nat} {ids : List Nat} {i : Nat}
    (h : l.find? (fun x => !(ids.contains x)) = some i) : i ∉ ids := by
  have hp := List.find?_some h
  simpa using hp

theorem generate_id_not_mem {d : List Entry} {draws : List Nat} {i : Nat}
    (h : generate_id d draws = some i) : i ∉ get_ids d :=
  find?_not_contains h

theorem get_ids_cons_none {en : Entry} (d : List Entry)
    (h : parseU128 en.name = none) : get_ids (en :: d) = get_ids d := by
  simp [get_ids, List.filterMap_cons, h]

theorem get_ids_cons_some {en : Entry} (d : List Entry) {v : Nat}
    (h : parseU128 en.name = some v) :
    get_ids (en :: d) = v :: get_ids d := by
  simp [get_ids, List.filterMap_cons, h]

theorem generate_id_single {d : List Entry} {v : Nat}
    (h : v ∉ get_ids d) : generate_id d [v] = some v := by
  simp [generate_id, List.find?, h]

theorem removeFile_error_of_absent {n : List Nat} {d : List Entry}
    (h : ∀ en ∈ d, en.name ≠ n) :
    removeFile n d = Except.error "file not found" := by
  induction d with
  | nil => rfl
  | cons en rest ih =>
    have hne : en.name ≠ n := h en (by simp)
    have hrest := ih (fun x hx => h x (by simp [hx]))
    simp only [removeFile, if_neg hne, hrest]
    rfl

theorem removeFile_ok_split {n : List Nat} {d d' : List Entry}
    (h : removeFile n d = Except.ok d') :
    ∃ pre en post, d = pre ++ en :: post ∧ en.name = n ∧
      en.ftype = FType.file ∧ d' = pre ++ post ∧
      ∀ x ∈ pre, x.name ≠ n := by
  induction d generalizing d' with
  | nil => simp [removeFile] at h
  | cons en rest ih =>
    by_cases hn : en.name = n
    · by_cases hf : en.ftype = FType.file
      · rw [removeFile, if_pos hn, if_pos hf] at h
        have hd : rest = d' := by
          injection h
        exact ⟨[], en, rest, by simp, hn, hf, by simp [hd], by simp⟩
      · rw [removeFile, if_pos hn, if_neg hf] at h
        exact absurd h (by simp)
    · rw [removeFile, if_neg hn] at h
      cases hr : removeFile n rest with
      | error msg => rw [hr] at h; exact absurd h (by simp [Except.map])
      | ok r =>
        rw [hr] at h
        have hd : en :: r = d' := by
          simpa [Except.map] using h
        obtain ⟨pre, x, post, hsplit, hname, hft, hres, hpre⟩ := ih hr
        refine ⟨en :: pre, x, post, by simp [hsplit], hname, hft, ?_, ?_⟩
        · rw [← hd, hres]; rfl
        · intro y hy
          rcases List.mem_cons.mp hy with rfl | hmem
          · exact hn
          · exact hpre y hmem

theorem removeFile_ok_of_present {n : List Nat} (pre post : List Entry)
    (en : Entry) (hname : en.name = n) (hft : en.ftype = FType.file)
    (hpre : ∀ x ∈ pre, x.name ≠ n) :
    removeFile n (pre ++ en :: post) = Except.ok (pre ++ post) := by
  induction pre with
  | nil => simp [removeFile, hname, hft]
  | cons x rest ih =>
    have hx : x.name ≠ n := hpre x (by simp)
    have hrest := ih (fun y hy => hpre y (by simp [hy]))
    have hunf : removeFile n (x :: (rest ++ en :: post))
        = (removeFile n (rest ++ en :: post)).map (fun l => x :: l) := by
      simp [removeFile, hx]
    rw [List.cons_append, hunf, hrest]
    rfl

theorem readEntries_ok_of_all {d : List Entry}
    (h : ∀ en ∈ d, en.ftype = FType.file → (decodeEntry en).isSome) :
    readEntries d = Except.ok
      ((d.filter (fun en => en.ftype = FType.file)).filterMap
        decodeEntry) := by
  induction d with
  | nil => rfl
  | cons en rest ih =>
    have hrest := ih (fun x hx hxf => h x (by simp [hx]) hxf)
    by_cases hf : en.ftype = FType.file
    · have hs := h en (by simp) hf
      cases hb : en.bytes with
      | none => rw [decodeEntry, hb] at hs; simp at hs
      | some b =>
        cases hdes : deserialize b with
        | none =>
          rw [decodeEntry, hb] at hs
          simp [hdes] at hs
        | some ev =>
          simp only [readEntries, if_pos hf, hb, hdes, hrest]
          simp [List.filter_cons, hf, List.filterMap_cons, decodeEntry,
            hb, hdes, Except.map]
    · simp only [readEntries, if_neg hf, hrest]
      simp [List.filter_cons, hf]

theorem readEntries_error_of_bad {d : List Entry}
    (h : ∃ en ∈ d, en.ftype = FType.file ∧ decodeEntry en = none) :
    ∃ msg, readEntries d = Except.error msg := by
  induction d with
  | nil => simp at h
  | cons en rest ih =>
    obtain ⟨x, hx, hxf, hxd⟩ := h
    rcases List.mem_cons.mp hx with rfl | hmem
    · cases hb : x.bytes with
      | none =>
        exact ⟨"failed to read from file", by simp [readEntries, hxf, hb]⟩
      | some b =>
        have hdes : deserialize b = none := by
          simpa [decodeEntry, hb] using hxd
        exact ⟨"failed to deserialize event",
          by simp [readEntries, hxf, hb, hdes]⟩
    · by_cases hf : en.ftype = FType.file
      · cases hb : en.bytes with
        | none =>
          exact ⟨"failed to read from file", by simp [readEntries, hf, hb]⟩
        | some b =>
          cases hdes : deserialize b with
          | none =>
            exact ⟨"failed to deserialize event",
              by simp [readEntries, hf, hb, hdes]⟩
          | some ev =>
            obtain ⟨msg, hmsg⟩ := ih ⟨x, hmem, hxf, hxd⟩
            exact ⟨msg, by simp [readEntries, hf, hb, hdes, hmsg,
              Except.map]⟩
      · obtain ⟨msg, hmsg⟩ := ih ⟨x, hmem, hxf, hxd⟩
        exact ⟨msg, by simp [readEntries, hf, hmsg]⟩

theorem containsName_false_iff {n : List Nat} {d : List Entry} :
    containsName n d = false ↔ ∀ en ∈ d, en.name ≠ n := by
  simp [containsName]

theorem GoodDir_store {d : List Entry} (e : Event) (he : e.Valid)
    (hd : GoodDir d) : GoodDir (e.store d) := by
  obtain ⟨hnd, hall⟩ := hd
  unfold Event.store fsWrite
  by_cases hc : containsName (decName e.id) d = true
  · rw [if_pos hc]
    constructor
    · have hmapeq : (d.map (fun en =>
          if en.name = decName e.id then
            ⟨decName e.id, FType.file, some (serialize e)⟩
          else en)).map Entry.name = d.map Entry.name := by
        rw [List.map_map]
        apply List.map_congr_left
        intro en _
        by_cases hen : en.name = decName e.id
        · simp [hen]
        · simp [hen]
      rw [hmapeq]
      exact hnd
    · intro en hen
      rcases List.mem_map.mp hen with ⟨x, hx, rfl⟩
      by_cases hxn : x.name = decName e.id
      · rw [if_pos hxn]
        exact ⟨rfl, e, he, rfl, rfl⟩
      · rw [if_neg hxn]
        exact hall x hx
  · rw [if_neg hc]
    have hc' : containsName (decName e.id) d = false := by
      simpa using hc
    have habs : ∀ en ∈ d, en.name ≠ decName e.id :=
      containsName_false_iff.mp hc'
    constructor
    · rw [List.map_append]
      rw [List.nodup_append]
      refine ⟨hnd, by simp, ?_⟩
      intro a ha hb
      simp at hb
      rcases List.mem_map.mp ha with ⟨x, hx, rfl⟩
      exact habs x hx hb
    · intro en hen
      rcases List.mem_append.mp hen with hmem | hmem
      · exact hall en hmem
      · have : en = ⟨decName e.id, FType.file, some (serialize e)⟩ := by
          simpa using hmem
        subst this
        exact ⟨rfl, e, he, rfl, rfl⟩

theorem GoodDir_delete {d d' : List Entry} (e : Event)
    (h : e.delete_file d = Except.ok d') (hd : GoodDir d) : GoodDir d' := by
  obtain ⟨hnd, hall⟩ := hd
  obtain ⟨pre, en, post, hsplit, _, _, hres, _⟩ := removeFile_ok_split h
  subst hsplit
  subst hres
  constructor
  · have hsub : List.Sublist ((pre ++ post).map Entry.name)
        ((pre ++ en :: post).map Entry.name) := by
      apply List.Sublist.map
      exact (List.sublist_cons_self en post).append_left pre
    exact hnd.sublist hsub
  · intro x hx
    apply hall
    rcases List.mem_append.mp hx with hmem | hmem
    · exact List.mem_append_left _ hmem
    · exact List.mem_append_right _ (List.mem_cons_of_mem en hmem)

theorem GoodDir_of_Reach {d : List Entry} (h : Reach d) : GoodDir d := by
  induction h with
  | empty => exact ⟨List.nodup_nil, by simp⟩
  | step hr hs ih =>
    cases hs with
    | construct name description date_time draws d => exact ih
    | store e he d => exact GoodDir_store e he ih
    | delete e he d d' hdel => exact GoodDir_delete e hdel ih

theorem decodeEntry_of_good {en : Entry} (h : EntryGood en) {e : Event}
    (hd : decodeEntry en = some e) : e.Valid ∧ en.name = decName e.id := by
  obtain ⟨_, e0, hv, hb, hn⟩ := h
  rw [decodeEntry, hb, Option.some_bind', deserialize_serialize e0 hv] at hd
  have he : e0 = e := by injection hd
  subst he
  exact ⟨hv, hn⟩

theorem pairwise_distinct_ids {d : List Entry}
    (hpw : d.Pairwise (fun a b => a.name ≠ b.name))
    (hall : ∀ en ∈ d, EntryGood en) :
    d.Pairwise (fun a b => ∀ ea eb : Event, decodeEntry a = some ea →
      decodeEntry b = some eb → ea.id ≠ eb.id) := by
  induction d with
  | nil => exact List.Pairwise.nil
  | cons x t ih =>
    rcases List.pairwise_cons.mp hpw with ⟨hx, ht⟩
    refine List.pairwise_cons.mpr
      ⟨?_, ih ht (fun en hen => hall en (List.mem_cons_of_mem _ hen))⟩
    intro b hb ea eb hda hdb hid
    obtain ⟨hva, hna⟩ := decodeEntry_of_good (hall x (by simp)) hda
    obtain ⟨hvb, hnb⟩ :=
      decodeEntry_of_good (hall b (List.mem_cons_of_mem _ hb)) hdb
    apply hx b hb
    rw [hna, hnb, hid]

theorem mem_insertPath {s : List (List String)} {q a : List String}
    (h : q ∈ s) : q ∈ insertPath s a := by
  rw [insertPath]
  split
  · exact h
  · exact List.mem_append_left _ h

theorem self_mem_insertPath (s : List (List String)) (a : List String) :
    a ∈ insertPath s a := by
  rw [insertPath]
  split
  · assumption
  · simp

theorem mem_foldl_insertPath (l : List (List String)) :
    ∀ (s : List (List String)) (q : List String), q ∈ s →
      q ∈ l.foldl insertPath s := by
  induction l with
  | nil => intro s q h; exact h
  | cons a t ih =>
    intro s q h
    exact ih (insertPath s a) q (mem_insertPath h)

theorem self_mem_foldl_insertPath (l : List (List String)) :
    ∀ (s : List (List String)) (q : List String), q ∈ l →
      q ∈ l.foldl insertPath s := by
  induction l with
  | nil => simp
  | cons a t ih =>
    intro s q hq
    rcases List.mem_cons.mp hq with rfl | hmem
    · exact mem_foldl_insertPath t (insertPath s q) q
        (self_mem_insertPath s q)
    · exact ih _ q hmem

theorem foldl_insertPath_id (l : List (List String)) :
    ∀ s, (∀ q ∈ l, q ∈ s) → l.foldl insertPath s = s := by
  induction l with
  | nil => intro s _; rfl
  | cons a t ih =>
    intro s h
    have ha : a ∈ s := h a (by simp)
    have hins : insertPath s a = s := by
      unfold insertPath
      rw [if_pos ha]
    simp only [List.foldl_cons, hins]
    exact ih s (fun q hq => h q (by simp [hq]))

/-! ## The claims -/

/-- C1: For every Event value (arbitrary name, description present or
absent, timestamp, and 128-bit id — i.e. any value the Rust types allow),
encoding it with the store's binary serialization and then decoding the
resulting bytes yields an Event equal to the original in every field,
including the id. -/
theorem C1_store_roundtrip (e : Event) (he : e.Valid) :
    deserialize (serialize e) = some e :=
  deserialize_serialize e he

theorem C1_store_roundtrip_witness :
    (⟨[84, 101, 115, 116], some [100, 101, 115, 99], ⟨974216, 123⟩,
        12345678901234567890⟩ : Event).Valid ∧
      deserialize (serialize
          ⟨[84, 101, 115, 116], some [100, 101, 115, 99], ⟨974216, 123⟩,
            12345678901234567890⟩)
        = some ⟨[84, 101, 115, 116], some [100, 101, 115, 99],
            ⟨974216, 123⟩, 12345678901234567890⟩ :=
  ⟨by decide, C1_store_roundtrip _ (by decide)⟩

/-- C2: Whenever identifier generation returns an id, that id is outside
the in-use set derived from the directory (filenames parsed as decimal
128-bit integers); entries with unparseable filenames have no effect on
that set; and whenever the in-use set is not the full 128-bit space, some
draw sequence makes generation return, necessarily with a fresh id. -/
theorem C2_generate_id_fresh :
    (∀ (d : List Entry) (draws : List Nat) (i : Nat),
        generate_id d draws = some i → i ∉ get_ids d) ∧
    (∀ (en : Entry) (d : List Entry), parseU128 en.name = none →
        get_ids (en :: d) = get_ids d) ∧
    (∀ d : List Entry, (∃ v, v < 2 ^ 128 ∧ v ∉ get_ids d) →
        ∃ draws i, generate_id d draws = some i ∧ i ∉ get_ids d) := by
  refine ⟨?_, ?_, ?_⟩
  · intro d draws i h
    exact generate_id_not_mem h
  · intro en d h
    exact get_ids_cons_none d h
  · intro d ⟨v, _, hv⟩
    exact ⟨[v], v, generate_id_single hv, hv⟩

theorem C2_generate_id_fresh_witness :
    (5 ∉ get_ids [⟨decName 3, FType.file, some []⟩]) ∧
      get_ids (⟨[102, 111, 111], FType.file, none⟩ ::
          [⟨decName 3, FType.file, some []⟩])
        = get_ids [⟨decName 3, FType.file, some []⟩] ∧
      ∃ draws i,
        generate_id [⟨decName 3, FType.file, some []⟩] draws = some i ∧
          i ∉ get_ids [⟨decName 3, FType.file, some []⟩] :=
  ⟨C2_generate_id_fresh.1 _ [3, 5] 5 (by decide),
    C2_generate_id_fresh.2.1 _ _ (by decide),
    C2_generate_id_fresh.2.2 _ ⟨5, by decide, by decide⟩⟩

/-- C3: In every directory state reachable from an empty events directory
by Construct, Store and Delete operations, no two files decode to events
with the same id — and no operation performs a post-hoc validation step:
the transitions are the plain operations themselves. -/
theorem C3_no_duplicate_ids {d : List Entry} (hd : Reach d) :
    d.Pairwise (fun a b => ∀ ea eb : Event, decodeEntry a = some ea →
      decodeEntry b = some eb → ea.id ≠ eb.id) := by
  obtain ⟨hnd, hall⟩ := GoodDir_of_Reach hd
  exact pairwise_distinct_ids (List.pairwise_map.mp hnd) hall

theorem C3_no_duplicate_ids_witness :
    (Event.store ⟨[97], none, ⟨0, 0⟩, 3⟩ []).Pairwise
      (fun a b => ∀ ea eb : Event, decodeEntry a = some ea →
        decodeEntry b = some eb → ea.id ≠ eb.id) :=
  C3_no_duplicate_ids
    (Reach.step Reach.empty
      (Step.store ⟨[97], none, ⟨0, 0⟩, 3⟩ (by decide) []))

/-- C4: ReadAll errors when the directory cannot be listed; when every
regular file is readable and decodes, it returns exactly the decoded
events of the regular files (directories and special entries skipped);
and when any regular file is unreadable or fails to decode, it returns an
error — the Except result never carries a truncated list. -/
theorem C4_read_events_strict :
    (∃ msg, read_events none = Except.error msg) ∧
    (∀ d : List Entry,
        (∀ en ∈ d, en.ftype = FType.file → (decodeEntry en).isSome) →
        read_events (some d) = Except.ok
          ((d.filter (fun en => en.ftype = FType.file)).filterMap
            decodeEntry)) ∧
    (∀ d : List Entry,
        (∃ en ∈ d, en.ftype = FType.file ∧ decodeEntry en = none) →
        ∃ msg, read_events (some d) = Except.error msg) := by
  refine ⟨⟨"failed to read directory", rfl⟩, ?_, ?_⟩
  · intro d h
    exact readEntries_ok_of_all h
  · intro d h
    exact readEntries_error_of_bad h

theorem C4_read_events_strict_witness :
    read_events (some [⟨decName 3, FType.dir, none⟩,
        ⟨[97], FType.file, some (serialize ⟨[97], none, ⟨0, 0⟩, 3⟩)⟩])
      = Except.ok [⟨[97], none, ⟨0, 0⟩, 3⟩] ∧
    ∃ msg, read_events (some [⟨[98], FType.file, some [0]⟩])
      = Except.error msg := by
  constructor
  · have h := C4_read_events_strict.2.1
      [⟨decName 3, FType.dir, none⟩,
        ⟨[97], FType.file, some (serialize ⟨[97], none, ⟨0, 0⟩, 3⟩)⟩]
      (by decide)
    rw [h]
    rfl
  · exact C4_read_events_strict.2.2 [⟨[98], FType.file, some [0]⟩]
      ⟨⟨[98], FType.file, some [0]⟩, by simp, rfl, by decide⟩

/-- C5: Delete removes exactly the file whose name is the decimal string
of the event's id: on success the directory loses precisely that entry
(a regular file so named) and nothing else; when no entry carries that
name, Delete returns an error rather than succeeding silently. -/
theorem C5_delete_exact (e : Event) (d : List Entry) :
    ((∀ en ∈ d, en.name ≠ decName e.id) →
      ∃ msg, e.delete_file d = Except.error msg) ∧
    (∀ d', e.delete_file d = Except.ok d' →
      ∃ pre en post, d = pre ++ en :: post ∧ en.name = decName e.id ∧
        en.ftype = FType.file ∧ d' = pre ++ post) ∧
    (∀ pre en post, d = pre ++ en :: post → en.name = decName e.id →
      en.ftype = FType.file → (∀ x ∈ pre, x.name ≠ decName e.id) →
      e.delete_file d = Except.ok (pre ++ post)) := by
  refine ⟨?_, ?_, ?_⟩
  · intro h
    exact ⟨"file not found", removeFile_error_of_absent h⟩
  · intro d' h
    obtain ⟨pre, en, post, hsplit, hname, hft, hres, _⟩ :=
      removeFile_ok_split h
    exact ⟨pre, en, post, hsplit, hname, hft, hres⟩
  · intro pre en post hsplit hname hft hpre
    rw [Event.delete_file, hsplit]
    exact removeFile_ok_of_present pre post en hname hft hpre

theorem C5_delete_exact_witness :
    (∃ msg, Event.delete_file ⟨[97], none, ⟨0, 0⟩, 3⟩ [] =
      Except.error msg) ∧
    Event.delete_file ⟨[97], none, ⟨0, 0⟩, 3⟩
        [⟨[120], FType.file, some []⟩, ⟨decName 3, FType.file, some []⟩]
      = Except.ok [⟨[120], FType.file, some []⟩] := by
  constructor
  · exact (C5_delete_exact ⟨[97], none, ⟨0, 0⟩, 3⟩ []).1 (by simp)
  · have h := (C5_delete_exact ⟨[97], none, ⟨0, 0⟩, 3⟩
        [⟨[120], FType.file, some []⟩,
          ⟨decName 3, FType.file, some []⟩]).2.2
      [⟨[120], FType.file, some []⟩] ⟨decName 3, FType.file, some []⟩ []
      rfl rfl rfl (by decide)
    simpa using h

/-- C6: Bootstrap creates the events directory together with every
ancestor prefix of its path, leaves a filesystem in which they all already
exist unchanged, and is idempotent: a second run returns exactly the
state the first run produced. -/
theorem C6_bootstrap_idempotent :
    (∀ (a : App) (fs : List (List String)),
        ∀ q ∈ pathPrefixes a.events_dir, q ∈ create_dirs a fs) ∧
    (∀ (a : App) (fs : List (List String)),
        (∀ q ∈ pathPrefixes a.events_dir, q ∈ fs) →
        create_dirs a fs = fs) ∧
    (∀ (a : App) (fs : List (List String)),
        create_dirs a (create_dirs a fs) = create_dirs a fs) := by
  refine ⟨?_, ?_, ?_⟩
  · intro a fs q hq
    exact self_mem_foldl_insertPath _ _ _ hq
  · intro a fs h
    exact foldl_insertPath_id _ _ h
  · intro a fs
    exact foldl_insertPath_id _ _
      (fun q hq => self_mem_foldl_insertPath _ _ _ hq)

theorem C6_bootstrap_idempotent_witness :
    (["r", "events"] ∈ create_dirs (App.new ["r"]) []) ∧
      create_dirs (App.new ["r"]) [["r"], ["r", "events"]]
        = [["r"], ["r", "events"]] ∧
      create_dirs (App.new ["r"]) (create_dirs (App.new ["r"]) [])
        = create_dirs (App.new ["r"]) [] :=
  ⟨C6_bootstrap_idempotent.1 (App.new ["r"]) [] _ (by decide),
    C6_bootstrap_idempotent.2.1 (App.new ["r"]) _ (by decide),
    C6_bootstrap_idempotent.2.2 (App.new ["r"]) []⟩

/-- C7: Construct only reads the events directory: as a state
transformer it returns the directory listing unchanged — nothing is
written — and its in-memory result is exactly the assembled record with
the id produced by identifier generation over that listing. -/
theorem C7_construct_writes_nothing (name : List Nat)
    (description : Option (List Nat)) (date_time : UtcDateTime)
    (d : List Entry) (draws : List Nat) :
    (constructOp name description date_time d draws).2 = d ∧
    (constructOp name description date_time d draws).1
      = (generate_id d draws).map (fun i =>
          { name := name, description := description,
            date_time := date_time, id := i }) :=
  ⟨rfl, rfl⟩

/-- C8 counterexample: Construct accepts the empty name and produces an
Event whose name field is empty, contradicting the claim that every Event
produced by Construct has a non-empty name. -/
theorem C8_counterexample :
    (Event.new [] none ⟨0, 0⟩ [] [0]).map Event.name = some [] := by
  decide

/-- C8 (amended): Construct copies the caller-supplied name into the
resulting Event unchanged, so the result's name is non-empty exactly when
the input name is; no non-emptiness validation is performed. -/
theorem C8_name_copied_verbatim (name : List Nat)
    (description : Option (List Nat)) (date_time : UtcDateTime)
    (d : List Entry) (draws : List Nat) (e : Event)
    (h : Event.new name description date_time d draws = some e) :
    e.name = name ∧ (e.name ≠ [] ↔ name ≠ []) := by
  rcases hg : generate_id d draws with _ | i
  · rw [Event.new, hg] at h
    exact absurd h (by simp)
  · rw [Event.new, hg] at h
    have he : (⟨name, description, date_time, i⟩ : Event) = e := by
      injection h
    rw [← he]
    exact ⟨rfl, Iff.rfl⟩

theorem C8_name_copied_verbatim_witness :
    Event.new [97] none ⟨0, 0⟩ [] [5]
        = some ⟨[97], none, ⟨0, 0⟩, 5⟩ ∧
      (⟨[97], none, ⟨0, 0⟩, 5⟩ : Event).name = [97] :=
  ⟨by decide,
    (C8_name_copied_verbatim [97] none ⟨0, 0⟩ [] [5] _ (by decide)).1⟩

/-- C9: Constructing a Storage Context is pure path composition that can
never fail: for every input path it sets the root data directory to that
path and the events directory to its fixed `events` sub-path. -/
theorem C9_app_new_pure (p : List String) :
    (App.new p).data_dir = p ∧
      (App.new p).events_dir = (App.new p).data_dir ++ ["events"] :=
  ⟨rfl, rfl⟩

/-- C10: The id-collision scan does not check entry file type: a
directory entry whose filename parses as a decimal 128-bit integer is
counted as an in-use id even when it is a subdirectory, while ReadAll
skips that same entry as a non-regular file. -/
theorem C10_id_scan_ignores_file_type (d : List Entry) (en : Entry)
    (v : Nat) (hft : en.ftype = FType.dir)
    (hp : parseU128 en.name = some v) :
    v ∈ get_ids (en :: d) ∧
      read_events (some (en :: d)) = read_events (some d) := by
  constructor
  · rw [get_ids_cons_some d hp]
    simp
  · show readEntries (en :: d) = readEntries d
    rw [readEntries, if_neg (by rw [hft]; exact fun hc => nomatch hc)]

theorem C10_id_scan_ignores_file_type_witness :
    7 ∈ get_ids [⟨decName 7, FType.dir, none⟩] ∧
      read_events (some [⟨decName 7, FType.dir, none⟩])
        = read_events (some []) :=
  C10_id_scan_ignores_file_type [] ⟨decName 7, FType.dir, none⟩ 7 rfl
    (by decide)

end Evnt
